import Mathlib

/-!
Verification of the `hey-aliens` FRB-classification scripts
(`simulateFRBclassification/simulated_NN.py` and
`simulateFRBclassification/extract_spectra.py`).

The Python code is shallowly embedded: pure numerical routines become Lean
functions over `ℝ`, the stateful `SimulatedFRB` methods become explicit
state-passing functions, random draws become explicit parameters constrained
by hypotheses matching the ranges the code requests from the RNG, and calls
into the external `waterfaller` library are modelled by an oracle argument.
-/

namespace HeyAliens

/-! ## `simulated_NN.get_classification_results` and `confusion_mat`

Labels are modelled as lists of naturals (numpy 1-D arrays of 0/1 values).
`np.where((y_true == a) & (y_pred == b))[0]` returns the list of indices
`i < len(y_true)` at which the two conditions hold, which for equal-length
arrays is `(List.range y_true.length).filter ...`. -/

/-- Embeds `get_classification_results(y_true, y_pred)` (no `test_SNR`):
returns the index arrays `(true_positives, false_positives, true_negatives,
false_negatives)` of the four `np.where` calls. -/
def get_classification_results (y_true y_pred : List ℕ) :
    List ℕ × List ℕ × List ℕ × List ℕ :=
  let idx := List.range y_true.length
  (idx.filter (fun i => y_true.getD i 0 = 1 ∧ y_pred.getD i 0 = 1),
   idx.filter (fun i => y_true.getD i 0 = 0 ∧ y_pred.getD i 0 = 1),
   idx.filter (fun i => y_true.getD i 0 = 0 ∧ y_pred.getD i 0 = 0),
   idx.filter (fun i => y_true.getD i 0 = 1 ∧ y_pred.getD i 0 = 0))

/-- Embeds `confusion_mat(y_true, y_pred)`: the 2×2 matrix
`np.array([[NTP, NFP], [NFN, NTN]])` of the lengths of the four index
arrays (the code unpacks `get_classification_results` as `TP, FP, TN, FN`,
matching the order it returns them in). -/
def confusion_mat (y_true y_pred : List ℕ) : List (List ℕ) :=
  let res := get_classification_results y_true y_pred
  let NTP := res.1.length
  let NFP := res.2.1.length
  let NTN := res.2.2.1.length
  let NFN := res.2.2.2.length
  [[NTP, NFP], [NFN, NTN]]

/-- Four filters by mutually-covering predicates partition a list's length. -/
theorem length_filter_four {α : Type} (l : List α)
    (p q r s : α → Prop) [DecidablePred p] [DecidablePred q]
    [DecidablePred r] [DecidablePred s]
    (hcover : ∀ x ∈ l,
      (p x ∧ ¬q x ∧ ¬r x ∧ ¬s x) ∨ (¬p x ∧ q x ∧ ¬r x ∧ ¬s x) ∨
      (¬p x ∧ ¬q x ∧ r x ∧ ¬s x) ∨ (¬p x ∧ ¬q x ∧ ¬r x ∧ s x)) :
    (l.filter (fun x => p x)).length + (l.filter (fun x => q x)).length +
      (l.filter (fun x => r x)).length + (l.filter (fun x => s x)).length
      = l.length := by
  induction l with
  | nil => simp
  | cons a t ih =>
    have ha := hcover a (List.mem_cons_self a t)
    have ht : ∀ x ∈ t,
        (p x ∧ ¬q x ∧ ¬r x ∧ ¬s x) ∨ (¬p x ∧ q x ∧ ¬r x ∧ ¬s x) ∨
        (¬p x ∧ ¬q x ∧ r x ∧ ¬s x) ∨ (¬p x ∧ ¬q x ∧ ¬r x ∧ s x) :=
      fun x hx => hcover x (List.mem_cons_of_mem a hx)
    have ih' := ih ht
    rcases ha with ⟨h1, h2, h3, h4⟩ | ⟨h1, h2, h3, h4⟩ |
      ⟨h1, h2, h3, h4⟩ | ⟨h1, h2, h3, h4⟩ <;>
      simp [List.filter_cons, h1, h2, h3, h4] <;> omega

/-- C3: for equal-length 0/1 label arrays, the four entries of
`confusion_mat(y_true, y_pred) = [[TP, FP], [FN, TN]]` sum to
`len(y_true)`. -/
theorem confusion_mat_sum (y_true y_pred : List ℕ)
    (hlen : y_true.length = y_pred.length)
    (ht : ∀ x ∈ y_true, x = 0 ∨ x = 1)
    (hp : ∀ x ∈ y_pred, x = 0 ∨ x = 1) :
    ((confusion_mat y_true y_pred).getD 0 []).getD 0 0 +
      ((confusion_mat y_true y_pred).getD 0 []).getD 1 0 +
      ((confusion_mat y_true y_pred).getD 1 []).getD 0 0 +
      ((confusion_mat y_true y_pred).getD 1 []).getD 1 0
      = y_true.length := by
  have hcover : ∀ i ∈ List.range y_true.length,
      ((y_true.getD i 0 = 1 ∧ y_pred.getD i 0 = 1) ∧
        ¬(y_true.getD i 0 = 0 ∧ y_pred.getD i 0 = 1) ∧
        ¬(y_true.getD i 0 = 0 ∧ y_pred.getD i 0 = 0) ∧
        ¬(y_true.getD i 0 = 1 ∧ y_pred.getD i 0 = 0)) ∨
      (¬(y_true.getD i 0 = 1 ∧ y_pred.getD i 0 = 1) ∧
        (y_true.getD i 0 = 0 ∧ y_pred.getD i 0 = 1) ∧
        ¬(y_true.getD i 0 = 0 ∧ y_pred.getD i 0 = 0) ∧
        ¬(y_true.getD i 0 = 1 ∧ y_pred.getD i 0 = 0)) ∨
      (¬(y_true.getD i 0 = 1 ∧ y_pred.getD i 0 = 1) ∧
        ¬(y_true.getD i 0 = 0 ∧ y_pred.getD i 0 = 1) ∧
        (y_true.getD i 0 = 0 ∧ y_pred.getD i 0 = 0) ∧
        ¬(y_true.getD i 0 = 1 ∧ y_pred.getD i 0 = 0)) ∨
      (¬(y_true.getD i 0 = 1 ∧ y_pred.getD i 0 = 1) ∧
        ¬(y_true.getD i 0 = 0 ∧ y_pred.getD i 0 = 1) ∧
        ¬(y_true.getD i 0 = 0 ∧ y_pred.getD i 0 = 0) ∧
        (y_true.getD i 0 = 1 ∧ y_pred.getD i 0 = 0)) := by
    intro i hi
    rw [List.mem_range] at hi
    have hti : y_true.getD i 0 ∈ y_true := by
      rw [List.getD_eq_getElem y_true 0 hi]
      exact y_true.getElem_mem hi
    have hpi : y_pred.getD i 0 ∈ y_pred := by
      rw [List.getD_eq_getElem y_pred 0 (hlen ▸ hi)]
      exact y_pred.getElem_mem (hlen ▸ hi)
    rcases ht _ hti with h1 | h1 <;> rcases hp _ hpi with h2 | h2 <;>
      omega
  have key := length_filter_four (List.range y_true.length)
    (fun i => y_true.getD i 0 = 1 ∧ y_pred.getD i 0 = 1)
    (fun i => y_true.getD i 0 = 0 ∧ y_pred.getD i 0 = 1)
    (fun i => y_true.getD i 0 = 0 ∧ y_pred.getD i 0 = 0)
    (fun i => y_true.getD i 0 = 1 ∧ y_pred.getD i 0 = 0) hcover
  simp only [confusion_mat, get_classification_results] at key ⊢
  simp at key ⊢
  omega

/-- Witness for `confusion_mat_sum` at `y_true = [1,0,1]`,
`y_pred = [1,1,0]`. -/
theorem confusion_mat_sum_witness :
    ((confusion_mat [1, 0, 1] [1, 1, 0]).getD 0 []).getD 0 0 +
      ((confusion_mat [1, 0, 1] [1, 1, 0]).getD 0 []).getD 1 0 +
      ((confusion_mat [1, 0, 1] [1, 1, 0]).getD 1 []).getD 0 0 +
      ((confusion_mat [1, 0, 1] [1, 1, 0]).getD 1 []).getD 1 0
      = ([1, 0, 1] : List ℕ).length :=
  confusion_mat_sum [1, 0, 1] [1, 1, 0] (by decide)
    (by decide) (by decide)

/-! ## `extract_spectra.remove_extras`

`np.random.choice(array, size=num_samples, replace=False)` only runs after
the assert has passed, and then draws `num_samples` distinct in-range
positions of `array`.  The draw is modelled by a raw index list `pick`;
the guarantees the library gives about it (requested size, no repeated
position, positions in range) are hypothesized only in the success branch,
so the assertion behaviour is established for every input. -/

/-- Embeds `remove_extras(array, num_samples)`: asserts
`num_samples <= len(array)` (the `Except.error` branch is the
`AssertionError`), then keeps the elements of `array` at the drawn
positions `pick`. -/
def remove_extras {α : Type} [Inhabited α] (array : List α)
    (num_samples : ℕ) (pick : List ℕ) : Except String (List α) :=
  if num_samples ≤ array.length then
    Except.ok (pick.map (fun i => array.getD i default))
  else
    Except.error "More samples needed than array has"

/-- C7: `remove_extras` raises its `AssertionError` exactly when
`num_samples > len(array)` (for every input, whatever the pending draw);
otherwise, for any draw satisfying the without-replacement contract of
`np.random.choice`, it returns `num_samples` elements of the input taken
at the drawn pairwise-distinct positions (no element chosen twice). -/
theorem remove_extras_spec {α : Type} [Inhabited α] (array : List α)
    (num_samples : ℕ) (pick : List ℕ) :
    ((∃ e, remove_extras array num_samples pick = Except.error e) ↔
      array.length < num_samples) ∧
    (num_samples ≤ array.length → pick.length = num_samples →
      pick.Nodup → (∀ i ∈ pick, i < array.length) →
      ∃ l, remove_extras array num_samples pick = Except.ok l ∧
        l.length = num_samples ∧ (∀ x ∈ l, x ∈ array) ∧
        l = pick.map (fun i => array.getD i default)) := by
  by_cases h : num_samples ≤ array.length
  · refine ⟨⟨fun ⟨e, he⟩ => ?_, fun hlt => absurd h (by omega)⟩,
      fun _ hlen hnodup hbound =>
        ⟨pick.map (fun i => array.getD i default), ?_, ?_, ?_, rfl⟩⟩
    · simp [remove_extras, h] at he
    · simp [remove_extras, h]
    · simp [hlen]
    · intro x hx
      rcases List.mem_map.mp hx with ⟨i, hi, rfl⟩
      have hib := hbound i hi
      rw [List.getD_eq_getElem array default hib]
      exact array.getElem_mem hib
  · refine ⟨⟨fun _ => by omega, fun _ => ?_⟩, fun hle => absurd hle h⟩
    exact ⟨"More samples needed than array has", by simp [remove_extras, h]⟩

/-- Witness for `remove_extras_spec`, exercising both halves: asking 4
samples from a 3-element array raises the `AssertionError`, and asking 2
with the draw at positions 0 and 2 returns those two elements. -/
theorem remove_extras_spec_witness :
    (∃ e, remove_extras ([10, 20, 30] : List ℕ) 4 [0, 2]
        = Except.error e) ∧
    (∃ l, remove_extras ([10, 20, 30] : List ℕ) 2 [0, 2] = Except.ok l ∧
      l.length = 2 ∧ (∀ x ∈ l, x ∈ ([10, 20, 30] : List ℕ)) ∧
      l = [0, 2].map (fun i => ([10, 20, 30] : List ℕ).getD i default)) :=
  ⟨(remove_extras_spec [10, 20, 30] 4 [0, 2]).1.mpr (by norm_num),
   (remove_extras_spec [10, 20, 30] 2 [0, 2]).2 (by norm_num) (by decide)
     (by decide) (by decide)⟩

/-! ## `extract_spectra.fil2spec`

The external `waterfaller.waterfall` call is modelled by an oracle
`w : ℕ → ℕ → WaterfallResult S` giving the outcome of the `call`-th
invocation when passed scan position `start`; the `while` loop gets a fuel
bound so that non-termination is observable as `outOfFuel`. -/

/-- Result of one call to the external `waterfaller.waterfall` function:
a Spectra object, an `AssertionError` carrying its message, or any other
exception (which the `except AssertionError` clause does not catch). -/
inductive WaterfallResult (S : Type) where
  | ok (spectra : S)
  | assertionError (msg : String)
  | otherError
  deriving DecidableEq

/-- The Spectra payload of a successful `waterfall` call, if any. -/
def okValue {S : Type} : WaterfallResult S → Option S
  | WaterfallResult.ok s => some s
  | _ => none

/-- Outcome of `fil2spec`. -/
inductive Fil2specOutcome (S F : Type) where
  | ok (spectra_array : List S) (freq : F)
  | valueError   -- the explicit `raise ValueError(...)`
  | uncaught     -- an exception the `except` clause does not catch propagates
  | outOfFuel    -- the loop did not terminate within the observed iterations
  deriving DecidableEq

/-- The `while not finished_scanning` loop of `fil2spec`.  Mirrors the
source faithfully: `timestep` is (re)bound to 0 at the top of every
iteration, so each `waterfall` call receives `start = 0`; the
`timestep += 1` after a successful call only changes the loop-local
variable, which the next iteration rebinds to 0. -/
def scanLoop {S : Type} (w : ℕ → ℕ → WaterfallResult S) (fuel call : ℕ)
    (acc : List S) : Fil2specOutcome S Unit :=
  match fuel with
  | 0 => Fil2specOutcome.outOfFuel
  | fuel + 1 =>
    let timestep := 0
    match w call timestep with
    | WaterfallResult.ok sp =>
        -- spectra_array.append(...); timestep += 1 (rebound to 0 next time)
        scanLoop w fuel (call + 1) (acc ++ [sp])
    | WaterfallResult.assertionError msg =>
        if msg = "" then Fil2specOutcome.ok acc ()
        else Fil2specOutcome.valueError
    | WaterfallResult.otherError => Fil2specOutcome.uncaught

/-- Embeds `fil2spec(fname, num_channels, spectra_array)`: runs the scanning
loop on the incoming `spectra_array` and, on normal exit, returns the
accumulated spectra together with the file's frequencies `freq`. -/
def fil2spec {S F : Type} (w : ℕ → ℕ → WaterfallResult S) (freq : F)
    (fuel : ℕ) (spectra_array : List S) : Fil2specOutcome S F :=
  match scanLoop w fuel 0 spectra_array with
  | Fil2specOutcome.ok arr _ => Fil2specOutcome.ok arr freq
  | Fil2specOutcome.valueError => Fil2specOutcome.valueError
  | Fil2specOutcome.uncaught => Fil2specOutcome.uncaught
  | Fil2specOutcome.outOfFuel => Fil2specOutcome.outOfFuel

/-- If the first `k` calls succeed and call `k` raises an empty
`AssertionError`, the loop stops normally with the successful spectra
appended to the accumulator. -/
theorem scanLoop_ok_value {S : Type} (w : ℕ → ℕ → WaterfallResult S) :
    ∀ (fuel k call : ℕ) (acc : List S), k < fuel →
      (∀ j < k, ∃ s, w (call + j) 0 = WaterfallResult.ok s) →
      w (call + k) 0 = WaterfallResult.assertionError "" →
      scanLoop w fuel call acc = Fil2specOutcome.ok
        (acc ++ (List.range k).filterMap (fun j => okValue (w (call + j) 0)))
        () := by
  intro fuel
  induction fuel with
  | zero => intro k call acc hk; omega
  | succ fuel ih =>
    intro k call acc hk hok hstop
    match k with
    | 0 =>
      simp only [Nat.add_zero] at hstop
      simp [scanLoop, hstop]
    | k + 1 =>
      obtain ⟨s, hs⟩ := hok 0 (by omega)
      simp only [Nat.add_zero] at hs
      have step : scanLoop w (fuel + 1) call acc
          = scanLoop w fuel (call + 1) (acc ++ [s]) := by
        simp [scanLoop, hs]
      rw [step]
      have hok' : ∀ j < k, ∃ t, w (call + 1 + j) 0 = WaterfallResult.ok t := by
        intro j hj
        have := hok (j + 1) (by omega)
        rwa [show call + (j + 1) = call + 1 + j by omega] at this
      have hstop' : w (call + 1 + k) 0 = WaterfallResult.assertionError "" := by
        rwa [show call + (k + 1) = call + 1 + k by omega] at hstop
      rw [ih k (call + 1) (acc ++ [s]) (by omega) hok' hstop']
      congr 1
      have h0 : okValue (w (call + 0) 0) = some s := by
        simp [okValue, hs]
      have heq : (List.range k).filterMap
            ((fun j => okValue (w (call + j) 0)) ∘ Nat.succ)
          = (List.range k).filterMap
            (fun j => okValue (w (call + 1 + j) 0)) := by
        apply List.filterMap_congr
        intro j _
        simp only [Function.comp_apply]
        rw [show call + Nat.succ j = call + 1 + j by omega]
      rw [List.range_succ_eq_map, List.filterMap_cons, List.filterMap_map,
        h0, heq]
      simp

/-- If the first `k` calls succeed and call `k` raises an `AssertionError`
with a non-empty message, the loop raises `ValueError`. -/
theorem scanLoop_valueError {S : Type} (w : ℕ → ℕ → WaterfallResult S) :
    ∀ (fuel k call : ℕ) (acc : List S) (msg : String), k < fuel →
      (∀ j < k, ∃ s, w (call + j) 0 = WaterfallResult.ok s) →
      w (call + k) 0 = WaterfallResult.assertionError msg → msg ≠ "" →
      scanLoop w fuel call acc = Fil2specOutcome.valueError := by
  intro fuel
  induction fuel with
  | zero => intro k call acc msg hk; omega
  | succ fuel ih =>
    intro k call acc msg hk hok hstop hmsg
    match k with
    | 0 =>
      simp only [Nat.add_zero] at hstop
      simp [scanLoop, hstop, hmsg]
    | k + 1 =>
      obtain ⟨s, hs⟩ := hok 0 (by omega)
      simp only [Nat.add_zero] at hs
      have step : scanLoop w (fuel + 1) call acc
          = scanLoop w fuel (call + 1) (acc ++ [s]) := by
        simp [scanLoop, hs]
      rw [step]
      have hok' : ∀ j < k, ∃ t, w (call + 1 + j) 0 = WaterfallResult.ok t := by
        intro j hj
        have := hok (j + 1) (by omega)
        rwa [show call + (j + 1) = call + 1 + j by omega] at this
      have hstop' : w (call + 1 + k) 0 = WaterfallResult.assertionError msg := by
        rwa [show call + (k + 1) = call + 1 + k by omega] at hstop
      exact ih k (call + 1) (acc ++ [s]) msg (by omega) hok' hstop' hmsg

/-- A normal exit of the loop can only come from an empty-message
`AssertionError` preceded by successful calls. -/
theorem scanLoop_ok_elim {S : Type} (w : ℕ → ℕ → WaterfallResult S) :
    ∀ (fuel call : ℕ) (acc arr : List S) (u : Unit),
      scanLoop w fuel call acc = Fil2specOutcome.ok arr u →
      ∃ k, k < fuel ∧ (∀ j < k, ∃ s, w (call + j) 0 = WaterfallResult.ok s) ∧
        w (call + k) 0 = WaterfallResult.assertionError "" := by
  intro fuel
  induction fuel with
  | zero => intro call acc arr u h; simp [scanLoop] at h
  | succ fuel ih =>
    intro call acc arr u h
    rcases hw : w call 0 with s | msg | _
    · have step : scanLoop w (fuel + 1) call acc
          = scanLoop w fuel (call + 1) (acc ++ [s]) := by
        simp [scanLoop, hw]
      rw [step] at h
      obtain ⟨k, hk, hok, hstop⟩ := ih (call + 1) (acc ++ [s]) arr u h
      refine ⟨k + 1, by omega, ?_, ?_⟩
      · intro j hj
        match j with
        | 0 => exact ⟨s, by simpa using hw⟩
        | j + 1 =>
          have := hok j (by omega)
          rwa [show call + 1 + j = call + (j + 1) by omega] at this
      · rwa [show call + (k + 1) = call + 1 + k by omega]
    · by_cases hmsg : msg = ""
      · subst hmsg
        exact ⟨0, by omega, by omega, by simpa using hw⟩
      · have : scanLoop w (fuel + 1) call acc = Fil2specOutcome.valueError := by
          simp [scanLoop, hw, hmsg]
        rw [this] at h
        exact absurd h (by simp)
    · have : scanLoop w (fuel + 1) call acc = Fil2specOutcome.uncaught := by
        simp [scanLoop, hw]
      rw [this] at h
      exact absurd h (by simp)

/-- C5: the scanning loop of `fil2spec` exits normally precisely when a
`waterfall` call raises an `AssertionError` with empty message (all earlier
calls having succeeded); a non-empty `AssertionError` message makes the
function raise `ValueError`; and on normal exit it returns the accumulated
spectra array together with the file's frequencies. -/
theorem fil2spec_exit_spec {S F : Type} (w : ℕ → ℕ → WaterfallResult S)
    (freq : F) (fuel : ℕ) (init : List S) :
    ((∃ arr, fil2spec w freq fuel init = Fil2specOutcome.ok arr freq) ↔
      ∃ k, k < fuel ∧ (∀ j < k, ∃ s, w j 0 = WaterfallResult.ok s) ∧
        w k 0 = WaterfallResult.assertionError "") ∧
    (∀ k msg, k < fuel → (∀ j < k, ∃ s, w j 0 = WaterfallResult.ok s) →
      w k 0 = WaterfallResult.assertionError msg → msg ≠ "" →
      fil2spec w freq fuel init = Fil2specOutcome.valueError) ∧
    (∀ k, k < fuel → (∀ j < k, ∃ s, w j 0 = WaterfallResult.ok s) →
      w k 0 = WaterfallResult.assertionError "" →
      fil2spec w freq fuel init = Fil2specOutcome.ok
        (init ++ (List.range k).filterMap (fun j => okValue (w j 0))) freq) := by
  refine ⟨⟨?_, ?_⟩, ?_, ?_⟩
  · rintro ⟨arr, harr⟩
    cases hscan : scanLoop w fuel 0 init with
    | ok arr' u =>
      obtain ⟨k, hk, hok, hstop⟩ :=
        scanLoop_ok_elim w fuel 0 init arr' u hscan
      exact ⟨k, hk, by simpa using hok, by simpa using hstop⟩
    | valueError => simp [fil2spec, hscan] at harr
    | uncaught => simp [fil2spec, hscan] at harr
    | outOfFuel => simp [fil2spec, hscan] at harr
  · rintro ⟨k, hk, hok, hstop⟩
    have hv := scanLoop_ok_value w fuel k 0 init hk (by simpa using hok)
      (by simpa using hstop)
    simp only [Nat.zero_add] at hv
    exact ⟨init ++ (List.range k).filterMap (fun j => okValue (w j 0)),
      by simp [fil2spec, hv]⟩
  · intro k msg hk hok hstop hmsg
    have := scanLoop_valueError w fuel k 0 init msg hk (by simpa using hok)
      (by simpa using hstop) hmsg
    simp [fil2spec, this]
  · intro k hk hok hstop
    have := scanLoop_ok_value w fuel k 0 init hk (by simpa using hok)
      (by simpa using hstop)
    simp [fil2spec, this]

/-- Concrete oracle for the `fil2spec` witness: the first call succeeds
with spectra `7`, every later call raises an empty `AssertionError`. -/
def w0 : ℕ → ℕ → WaterfallResult ℕ := fun call _start =>
  if call < 1 then WaterfallResult.ok 7 else WaterfallResult.assertionError ""

/-- Witness for `fil2spec_exit_spec`: one successful scan, then the
end-of-data signal; the loop returns the single collected Spectra. -/
theorem fil2spec_exit_spec_witness :
    fil2spec w0 () 10 ([] : List ℕ) = Fil2specOutcome.ok
      (([] : List ℕ) ++
        (List.range 1).filterMap (fun j => okValue (w0 j 0))) () :=
  (fil2spec_exit_spec w0 () 10 []).2.2 1 (by norm_num)
    (fun j hj => ⟨7, by
      have h0 : j = 0 := by omega
      subst h0; rfl⟩) rfl

/-- Oracle for a well-behaved filterbank file with `L` readable 256-bin
chunks: `waterfall` succeeds at every scan position below `L` (whatever
call number it is) and signals end-of-data with an empty `AssertionError`
from position `L` on. -/
def fileOracle (L : ℕ) : ℕ → ℕ → WaterfallResult ℕ := fun _call start =>
  if start < L then WaterfallResult.ok start
  else WaterfallResult.assertionError ""

/-- Because `timestep` is rebound to 0 at the top of every iteration, every
`waterfall` call reads from scan position 0; on a file with at least one
readable chunk that call always succeeds, so the loop never exits. -/
theorem scanLoop_fileOracle_diverges (L : ℕ) (hL : 1 ≤ L) :
    ∀ (fuel call : ℕ) (acc : List ℕ),
      scanLoop (fileOracle L) fuel call acc = Fil2specOutcome.outOfFuel := by
  intro fuel
  induction fuel with
  | zero => intro call acc; simp [scanLoop]
  | succ fuel ih =>
    intro call acc
    have hw : fileOracle L call 0 = WaterfallResult.ok 0 := by
      have hpos : 0 < L := hL
      simp [fileOracle, hpos]
    have step : scanLoop (fileOracle L) (fuel + 1) call acc
        = scanLoop (fileOracle L) fuel (call + 1) (acc ++ [0]) := by
      simp [scanLoop, hw]
    rw [step]
    exact ih (call + 1) (acc ++ [0])

/-- C6 refutation: on every filterbank file with at least one readable
chunk the scanning loop of `fil2spec` never terminates — the scan start
position passed to `waterfall` is 0 at every iteration, not advanced. -/
theorem fil2spec_never_terminates {F : Type} (L : ℕ) (freq : F)
    (fuel : ℕ) (init : List ℕ) (hL : 1 ≤ L) :
    fil2spec (fileOracle L) freq fuel init = Fil2specOutcome.outOfFuel := by
  have := scanLoop_fileOracle_diverges L hL fuel 0 init
  simp [fil2spec, this]

/-- Witness for `fil2spec_never_terminates`: a one-chunk file, 5 observed
iterations, empty initial accumulator. -/
theorem fil2spec_never_terminates_witness :
    fil2spec (fileOracle 1) () 5 ([] : List ℕ)
      = Fil2specOutcome.outOfFuel :=
  fil2spec_never_terminates 1 () 5 [] (by norm_num)

/-! ## `extract_spectra.chop_off`

A numpy 3-D array is modelled as a nested list (blocks × frequency rows ×
time bins) together with a uniform-shape predicate `wf3`. -/

/-- numpy `np.arange(start, stop, step)` over naturals: the
`⌈(stop - start) / step⌉` values `start, start + step, ...` below `stop`. -/
def arangeStep (start stop step : ℕ) : List ℕ :=
  (List.range ((stop - start + (step - 1)) / step)).map
    (fun i => start + i * step)

/-- One section of `np.split(arr, ..., axis=2)`: the 3-D array restricted,
along its last (time) axis, to columns `lo ≤ j < hi`. -/
def sliceTime {α : Type} (arr : List (List (List α))) (lo hi : ℕ) :
    List (List (List α)) :=
  arr.map (fun block => block.map (fun row => (row.drop lo).take (hi - lo)))

/-- `arr.shape[-1]` of a uniformly-shaped, nonempty 3-D array. -/
def timeLen {α : Type} (arr : List (List (List α))) : ℕ :=
  ((arr.headD []).headD []).length

/-- The `(lo, hi)` column ranges of the sections produced by
`np.split(arr, cuts, axis=2)`: consecutive pairs of `0 :: cuts ++ [T]`. -/
def cutPairs (cuts : List ℕ) (T : ℕ) : List (ℕ × ℕ) :=
  let b := 0 :: (cuts ++ [T])
  b.zip b.tail

/-- Embeds `chop_off(array)`: splits the 3-D array along the time axis at
`np.arange(256, T, 256)`, drops the last section if it has fewer than 256
time bins, and concatenates the kept sections along axis 0. -/
def chop_off {α : Type} (array : List (List (List α))) :
    List (List (List α)) :=
  let subsections := arangeStep 256 (timeLen array) 256
  let split_array := (cutPairs subsections (timeLen array)).map
    (fun p => sliceTime array p.1 p.2)
  let split_array :=
    if timeLen (split_array.getLastD []) < 256 then split_array.dropLast
    else split_array
  split_array.flatten

/-- Uniform shape `(N, F, T)` of a 3-D list array. -/
def wf3 {α : Type} (arr : List (List (List α))) (N F T : ℕ) : Prop :=
  arr.length = N ∧ ∀ b ∈ arr, b.length = F ∧ ∀ r ∈ b, r.length = T

theorem timeLen_eq {α : Type} (arr : List (List (List α))) (N F T : ℕ)
    (hwf : wf3 arr N F T) (hN : 1 ≤ N) (hF : 1 ≤ F) : timeLen arr = T := by
  obtain ⟨hlen, hblocks⟩ := hwf
  cases arr with
  | nil => simp at hlen; omega
  | cons b rest =>
    obtain ⟨hbF, hrows⟩ := hblocks b (by simp)
    cases b with
    | nil => simp at hbF; omega
    | cons r rrest => simpa [timeLen] using hrows r (by simp)

theorem timeLen_sliceTime {α : Type} (arr : List (List (List α)))
    (N F T lo hi : ℕ) (hwf : wf3 arr N F T) (hN : 1 ≤ N) (hF : 1 ≤ F) :
    timeLen (sliceTime arr lo hi) = min (hi - lo) (T - lo) := by
  obtain ⟨hlen, hblocks⟩ := hwf
  cases arr with
  | nil => simp at hlen; omega
  | cons b rest =>
    obtain ⟨hbF, hrows⟩ := hblocks b (by simp)
    cases b with
    | nil => simp at hbF; omega
    | cons r rrest =>
      have hr : r.length = T := hrows r (by simp)
      simp [timeLen, sliceTime, hr]

theorem flatten_length_const {α : Type} (L : List (List α)) (c : ℕ)
    (h : ∀ x ∈ L, x.length = c) : L.flatten.length = L.length * c := by
  induction L with
  | nil => simp
  | cons a t ih =>
    simp only [List.flatten_cons, List.length_append, List.length_cons]
    rw [h a (by simp), ih (fun x hx => h x (by simp [hx]))]
    ring

theorem cutPairs_length (cuts : List ℕ) (T : ℕ) :
    (cutPairs cuts T).length = cuts.length + 1 := by
  simp [cutPairs]

set_option maxRecDepth 4000 in
theorem cutPairs_get (cuts : List ℕ) (T i : ℕ)
    (h : i < cuts.length + 1) :
    (cutPairs cuts T).get ⟨i, by rw [cutPairs_length]; omega⟩
      = ((0 :: (cuts ++ [T])).get ⟨i, by simp; omega⟩,
         (cuts ++ [T]).get ⟨i, by simp; omega⟩) := by
  show ((0 :: (cuts ++ [T])).zip (cuts ++ [T])).get ⟨i, by simp; omega⟩ = _
  simp only [List.get_eq_getElem, List.getElem_zip]

theorem arange256_get (T i : ℕ)
    (h : i < (arangeStep 256 T 256).length) :
    (arangeStep 256 T 256).get ⟨i, h⟩ = 256 + i * 256 := by
  simp [arangeStep]

set_option maxRecDepth 20000 in
/-- The `i`-th section range of `chop_off`'s split: `(256 i, 256 (i + 1))`
for the full sections and `(256 K, T)` for the last one. -/
theorem cutPairs_arange_get (T i : ℕ)
    (hi : i < (arangeStep 256 T 256).length + 1) :
    (cutPairs (arangeStep 256 T 256) T).get ⟨i, by
        rw [cutPairs_length]; omega⟩
      = (256 * i,
         if i < (arangeStep 256 T 256).length then 256 * (i + 1) else T) := by
  rw [cutPairs_get (arangeStep 256 T 256) T i hi]
  have hsecond : ∀ hb : i < (arangeStep 256 T 256 ++ [T]).length,
      (arangeStep 256 T 256 ++ [T]).get ⟨i, hb⟩
      = if i < (arangeStep 256 T 256).length then 256 * (i + 1) else T := by
    intro hb
    by_cases hil : i < (arangeStep 256 T 256).length
    · have ha := arange256_get T i hil
      simp only [List.get_eq_getElem] at ha ⊢
      rw [List.getElem_append_left hil, if_pos hil, ha]
      ring
    · have hie : i = (arangeStep 256 T 256).length := by omega
      subst hie
      rw [if_neg hil]
      simp
  have hfirst : ∀ hb : i < (0 :: (arangeStep 256 T 256 ++ [T])).length,
      (0 :: (arangeStep 256 T 256 ++ [T])).get ⟨i, hb⟩ = 256 * i := by
    intro hb
    cases i with
    | zero => simp
    | succ j =>
      have hjl : j < (arangeStep 256 T 256).length := by omega
      have ha := arange256_get T j hjl
      simp only [List.get_eq_getElem] at ha ⊢
      simp only [List.getElem_cons_succ]
      rw [List.getElem_append_left hjl, ha]
      ring
  rw [hfirst, hsecond]

/-- A 256-wide time slice of a well-formed array keeps all `F` rows and
cuts every row to exactly 256 bins. -/
theorem sliceTime_chunks {α : Type} (arr : List (List (List α)))
    (N F T lo hi : ℕ) (hwf : wf3 arr N F T)
    (hdiff : hi - lo = 256) (hhi : hi ≤ T) :
    ∀ chunk ∈ sliceTime arr lo hi, chunk.length = F ∧
      ∀ row ∈ chunk, row.length = 256 := by
  intro chunk hchunk
  obtain ⟨b, hb, rfl⟩ := List.mem_map.mp hchunk
  obtain ⟨hbF, hrows⟩ := hwf.2 b hb
  refine ⟨by simpa using hbF, ?_⟩
  intro row hrow
  obtain ⟨r, hr, rfl⟩ := List.mem_map.mp hrow
  have hrT : r.length = T := hrows r hr
  simp only [List.length_take, List.length_drop, hrT]
  omega

set_option maxRecDepth 20000 in
/-- C9: for a uniformly-shaped `(N, F, T)` 3-D array with `T ≥ 256`,
`chop_off` splits at multiples of 256 along the time axis, drops the final
partial section, and returns `N * ⌊T/256⌋` chunks, each with `F` rows of
exactly 256 time bins. -/
theorem chop_off_spec {α : Type} (array : List (List (List α)))
    (N F T : ℕ) (hwf : wf3 array N F T) (hN : 1 ≤ N) (hF : 1 ≤ F)
    (hT : 256 ≤ T) :
    (chop_off array).length = N * (T / 256) ∧
    ∀ chunk ∈ chop_off array, chunk.length = F ∧
      ∀ row ∈ chunk, row.length = 256 := by
  have hTlen : timeLen array = T := timeLen_eq array N F T hwf hN hF
  have harrN : array.length = N := hwf.1
  have hchop : chop_off array
      = (if timeLen (((cutPairs (arangeStep 256 T 256) T).map
            (fun p => sliceTime array p.1 p.2)).getLastD []) < 256
         then ((cutPairs (arangeStep 256 T 256) T).map
            (fun p => sliceTime array p.1 p.2)).dropLast
         else (cutPairs (arangeStep 256 T 256) T).map
            (fun p => sliceTime array p.1 p.2)).flatten := by
    unfold chop_off
    rw [hTlen]
  have hK : (arangeStep 256 T 256).length = (T - 256 + 255) / 256 := by
    simp [arangeStep]
  set K := (arangeStep 256 T 256).length with hKdef
  have hKlo : 256 * K ≤ T - 1 := by omega
  have hKhi : T ≤ 256 * K + 256 := by omega
  have hpl : (cutPairs (arangeStep 256 T 256) T).length = K + 1 :=
    cutPairs_length _ _
  have hmaplen : ((cutPairs (arangeStep 256 T 256) T).map
      (fun p => sliceTime array p.1 p.2)).length = K + 1 := by
    simp [hpl]
  have hlastpair := cutPairs_arange_get T K (by omega)
  simp only [List.get_eq_getElem] at hlastpair
  rw [if_neg (by omega : ¬ K < K)] at hlastpair
  have hlast : (((cutPairs (arangeStep 256 T 256) T).map
      (fun p => sliceTime array p.1 p.2)).getLastD [])
      = sliceTime array (256 * K) T := by
    rw [List.getLastD_eq_getLast?, List.getLast?_eq_getElem?, hmaplen]
    simp only [Nat.add_sub_cancel]
    rw [List.getElem?_map,
      List.getElem?_eq_getElem (by rw [hpl]; omega), hlastpair]
    rfl
  have hwidth : timeLen (sliceTime array (256 * K) T) = T - 256 * K := by
    rw [timeLen_sliceTime array N F T (256 * K) T hwf hN hF]
    omega
  rw [hlast, hwidth] at hchop
  by_cases hpop : T - 256 * K < 256
  · -- a final partial section exists and is dropped
    rw [if_pos hpop] at hchop
    have hq : T / 256 = K := by omega
    have hsecN : ∀ x ∈ ((cutPairs (arangeStep 256 T 256) T).map
        (fun p => sliceTime array p.1 p.2)).dropLast, x.length = N := by
      intro x hx
      obtain ⟨i, hi, hxi⟩ := List.getElem_of_mem hx
      rw [List.getElem_dropLast, List.getElem_map] at hxi
      rw [← hxi]
      simpa [sliceTime] using harrN
    constructor
    · rw [hchop, flatten_length_const _ N hsecN]
      simp only [List.length_dropLast, hmaplen]
      rw [hq, show K + 1 - 1 = K from by omega]
      ring
    · intro chunk hchunk
      rw [hchop] at hchunk
      obtain ⟨sec, hsec, hcm⟩ := List.mem_flatten.mp hchunk
      obtain ⟨i, hi, hseci⟩ := List.getElem_of_mem hsec
      have hiK : i < K := by
        have := hi
        simp only [List.length_dropLast, hmaplen] at this
        omega
      have hpairi := cutPairs_arange_get T i (by omega)
      simp only [List.get_eq_getElem] at hpairi
      rw [List.getElem_dropLast, List.getElem_map, hpairi,
        if_pos hiK] at hseci
      rw [← hseci] at hcm
      exact sliceTime_chunks array N F T (256 * i) (256 * (i + 1)) hwf
        (by ring_nf; omega) (by omega) chunk hcm
  · -- T is a multiple of 256: the last section is full and kept
    rw [if_neg hpop] at hchop
    have hTK : T = 256 * K + 256 := by omega
    have hq : T / 256 = K + 1 := by omega
    have hsecN : ∀ x ∈ (cutPairs (arangeStep 256 T 256) T).map
        (fun p => sliceTime array p.1 p.2), x.length = N := by
      intro x hx
      obtain ⟨p, _, hxp⟩ := List.mem_map.mp hx
      rw [← hxp]
      simpa [sliceTime] using harrN
    constructor
    · rw [hchop, flatten_length_const _ N hsecN, hmaplen, hq]
      ring
    · intro chunk hchunk
      rw [hchop] at hchunk
      obtain ⟨sec, hsec, hcm⟩ := List.mem_flatten.mp hchunk
      obtain ⟨i, hi, hseci⟩ := List.getElem_of_mem hsec
      have hiK : i < K + 1 := by
        have := hi
        simp only [hmaplen] at this
        omega
      have hpairi := cutPairs_arange_get T i (by omega)
      simp only [List.get_eq_getElem] at hpairi
      rw [List.getElem_map, hpairi] at hseci
      by_cases hil : i < K
      · rw [if_pos hil] at hseci
        rw [← hseci] at hcm
        exact sliceTime_chunks array N F T (256 * i) (256 * (i + 1)) hwf
          (by ring_nf; omega) (by omega) chunk hcm
      · rw [if_neg hil] at hseci
        rw [← hseci] at hcm
        exact sliceTime_chunks array N F T (256 * i) T hwf
          (by omega) (by omega) chunk hcm

set_option maxRecDepth 20000 in
/-- Witness for `chop_off_spec`: a `1 × 1 × 300` array of zeros yields one
chunk of 256 bins (`⌊300/256⌋ = 1`). -/
theorem chop_off_spec_witness :
    (chop_off [[List.replicate 300 (0 : ℕ)]]).length = 1 * (300 / 256) ∧
    ∀ chunk ∈ chop_off [[List.replicate 300 (0 : ℕ)]], chunk.length = 1 ∧
      ∀ row ∈ chunk, row.length = 256 :=
  chop_off_spec [[List.replicate 300 0]] 1 1 300
    (by
      refine ⟨rfl, ?_⟩
      intro b hb
      simp only [List.mem_singleton] at hb
      subst hb
      refine ⟨rfl, ?_⟩
      intro r hr
      simp only [List.mem_singleton] at hr
      subst hr
      simp)
    (by norm_num) (by norm_num) (by norm_num)

/-! ## `simulated_NN.make_labels`

`make_labels` calls `simulate_background()` and `gaussianFRB(...)`, which
are defined nowhere in the repository: only this caller exists in the
source.  They are modelled from the spec below, with their random draws
supplied by oracle arguments. -/

/-- A 2-D numpy array (frequency × time) over the reals. -/
def Mat : Type := ℕ → ℕ → ℝ

/-- Modelled from the spec: `simulate_background` is missing from the
source; per the spec the script "simulate[s] noise backgrounds" — a fresh
2-D noise array per call, here the `sim`-th draw of the oracle `bg`. -/
def simulate_background (bg : ℕ → Mat) (sim : ℕ) : Mat := bg sim

/-- Modelled from the spec: `gaussianFRB` is missing from the source; per
the spec the script "inject[s] synthetic FRBs" into a noise background,
"optionally paired with the sampled signal-to-noise ratio" — with
`returnSNR=True` it returns the injected array and the sampled SNR, here
the oracle `inj` applied to the background and `SNRmin`. -/
def gaussianFRB (inj : Mat → ℝ → Mat × ℝ) (data : Mat) (SNRmin : ℝ) :
    Mat × ℝ := inj data SNRmin

/-- One iteration of the `for sim in np.arange(num_data)` loop of
`make_labels`: append the noise-only background with label 0, then the
FRB-injected version of the same background with label 1, recording the
sampled SNR twice. -/
def make_labels_step (bg : ℕ → Mat) (inj : Mat → ℝ → Mat × ℝ) (SNRmin : ℝ)
    (acc : List Mat × List ℕ × List ℝ) (sim : ℕ) :
    List Mat × List ℕ × List ℝ :=
  let fake_noise := simulate_background bg sim
  let res := gaussianFRB inj fake_noise SNRmin
  (acc.1 ++ [fake_noise, res.1], acc.2.1 ++ [0, 1],
   acc.2.2 ++ [res.2, res.2])

/-- Embeds `make_labels(num_data, SNRmin)`: runs the simulation loop and
returns the stacked data, label and SNR arrays. -/
def make_labels (bg : ℕ → Mat) (inj : Mat → ℝ → Mat × ℝ)
    (num_data : ℕ) (SNRmin : ℝ) : List Mat × List ℕ × List ℝ :=
  (List.range num_data).foldl (make_labels_step bg inj SNRmin) ([], [], [])

theorem make_labels_foldl (bg : ℕ → Mat) (inj : Mat → ℝ → Mat × ℝ)
    (SNRmin : ℝ) :
    ∀ (l : List ℕ) (acc : List Mat × List ℕ × List ℝ),
      l.foldl (make_labels_step bg inj SNRmin) acc
        = (acc.1 ++ l.bind (fun i => [bg i, (inj (bg i) SNRmin).1]),
           acc.2.1 ++ l.bind (fun _ => [0, 1]),
           acc.2.2 ++ l.bind (fun i =>
             [(inj (bg i) SNRmin).2, (inj (bg i) SNRmin).2])) := by
  intro l
  induction l with
  | nil => intro acc; simp
  | cons a t ih =>
    intro acc
    rw [List.foldl_cons, ih]
    simp [make_labels_step, simulate_background, gaussianFRB]

theorem length_bind_pair {α β : Type} (l : List α) (f g : α → β) :
    (l.bind (fun i => [f i, g i])).length = 2 * l.length := by
  induction l with
  | nil => simp
  | cons a t ih =>
    simp [List.cons_bind, ih]
    omega

/-- C2: `make_labels(num_data, SNRmin)` returns three stacked arrays of
length `2 * num_data`; the data alternates each simulated noise background
with that same background after FRB injection, the labels alternate 0
(noise-only) and 1 (FRB-injected), and the SNR array repeats each sampled
SNR twice. -/
theorem make_labels_spec (bg : ℕ → Mat) (inj : Mat → ℝ → Mat × ℝ)
    (num_data : ℕ) (SNRmin : ℝ) (hnum : 1 ≤ num_data) :
    make_labels bg inj num_data SNRmin
      = ((List.range num_data).bind (fun i =>
            [bg i, (inj (bg i) SNRmin).1]),
         (List.range num_data).bind (fun _ => [0, 1]),
         (List.range num_data).bind (fun i =>
            [(inj (bg i) SNRmin).2, (inj (bg i) SNRmin).2])) ∧
    (make_labels bg inj num_data SNRmin).1.length = 2 * num_data ∧
    (make_labels bg inj num_data SNRmin).2.1.length = 2 * num_data ∧
    (make_labels bg inj num_data SNRmin).2.2.length = 2 * num_data := by
  have h := make_labels_foldl bg inj SNRmin (List.range num_data)
    ([], [], [])
  have heq : make_labels bg inj num_data SNRmin
      = ((List.range num_data).bind (fun i =>
            [bg i, (inj (bg i) SNRmin).1]),
         (List.range num_data).bind (fun _ => [0, 1]),
         (List.range num_data).bind (fun i =>
            [(inj (bg i) SNRmin).2, (inj (bg i) SNRmin).2])) := by
    rw [make_labels, h]
    simp
  refine ⟨heq, ?_, ?_, ?_⟩ <;> rw [heq] <;>
    simp only [length_bind_pair, List.length_range]

/-- Witness for `make_labels_spec`: one simulated example with a zero
background and an injection oracle returning the background and SNR 5. -/
theorem make_labels_spec_witness :
    make_labels (fun _ => (fun _ _ => 0 : Mat))
        (fun d _ => (d, 5)) 1 (8 : ℝ)
      = ((List.range 1).bind (fun i =>
            [(fun _ _ => 0 : Mat),
             ((fun (d : Mat) (_ : ℝ) => (d, (5 : ℝ)))
               ((fun _ _ => 0 : Mat)) (8 : ℝ)).1]),
         (List.range 1).bind (fun _ => [0, 1]),
         (List.range 1).bind (fun _ => [(5 : ℝ), (5 : ℝ)])) ∧
    (make_labels (fun _ => (fun _ _ => 0 : Mat))
        (fun d _ => (d, 5)) 1 (8 : ℝ)).1.length = 2 * 1 ∧
    (make_labels (fun _ => (fun _ _ => 0 : Mat))
        (fun d _ => (d, 5)) 1 (8 : ℝ)).2.1.length = 2 * 1 ∧
    (make_labels (fun _ => (fun _ _ => 0 : Mat))
        (fun d _ => (d, 5)) 1 (8 : ℝ)).2.2.length = 2 * 1 :=
  make_labels_spec (fun _ => (fun _ _ => 0)) (fun d _ => (d, 5)) 1 8
    (by norm_num)

/-! ## The `SimulatedFRB` class

numpy float arithmetic is embedded as exact real arithmetic; 2-D arrays
are functions `Mat = ℕ → ℕ → ℝ` with the shape carried by the object
state.  Methods become state-passing functions `... → result × SimulatedFRB`
(the returned state records every assignment to `self`); every RNG draw is
an explicit argument, constrained in the theorems to the range the code
requests. -/

/-- Python floor division on integers (`a // b`). -/
def pyFloorDiv (a b : ℤ) : ℤ := Int.fdiv a b

/-- `np.linspace(a, b, n)`: `n` evenly spaced points from `a` to `b`
inclusive (for `n = 1` the single point is `a`). -/
noncomputable def linspace (a b : ℝ) (n : ℕ) (i : ℕ) : ℝ :=
  if n = 1 then a else a + i * (b - a) / ((n : ℝ) - 1)

/-- The fields a `SimulatedFRB` object carries after `__init__`. -/
structure SimulatedFRB where
  nchan : ℕ                -- shape[0], number of frequency channels
  nt : ℕ                   -- shape[1], number of time bins
  f_ref : ℝ                -- reference frequency (MHz)
  max_width : ℕ            -- maximum pulse width
  frequencies : ℕ → ℝ      -- np.linspace over the band
  t0 : ℤ                   -- random pulse centre
  tau : ℝ                  -- scattering timescale
  SNR : Option ℝ           -- None until set
  FRB : Option Mat         -- None until scintillate() assigns it
  background : Mat         -- np.random.randn(*shape)

/-- `SimulatedFRB.__init__(shape, f_ref, bandwidth, max_width, tau)`; the
RNG draws (`t0draw` for the pulse centre, `bg` for the Gaussian noise
background) are explicit arguments. -/
noncomputable def SimulatedFRB.init (shape : ℕ × ℕ) (f_ref : ℝ)
    (bandwidth : ℤ) (max_width : ℕ) (tau : ℝ) (t0draw : ℤ) (bg : Mat) :
    SimulatedFRB :=
  { nchan := shape.1
    nt := shape.2
    f_ref := f_ref
    max_width := max_width
    frequencies := fun r =>
      linspace (f_ref - ((pyFloorDiv bandwidth 2 : ℤ) : ℝ))
        (f_ref + ((pyFloorDiv bandwidth 2 : ℤ) : ℝ)) shape.1 r
    t0 := t0draw
    tau := tau
    SNR := none
    FRB := none
    background := bg }

/-- The local `t = np.linspace(-self.nt // 2, self.nt // 2, self.nt)` of
`gaussian_profile` (Python floor division on both bounds). -/
noncomputable def gauss_t (s : SimulatedFRB) (i : ℕ) : ℝ :=
  linspace ((pyFloorDiv (-(s.nt : ℤ)) 2 : ℤ) : ℝ) ((s.nt / 2 : ℕ) : ℝ)
    s.nt i

/-- The local `g = np.exp(-(t / np.random.randint(1, self.max_width))**2)`
of `gaussian_profile`; `width` is the randint draw. -/
noncomputable def gauss_g (s : SimulatedFRB) (width : ℕ) (i : ℕ) : ℝ :=
  Real.exp (-(gauss_t s i / (width : ℝ)) ^ 2)

open Classical in
/-- Embeds `gaussian_profile(self)`; `width` is the
`np.random.randint(1, self.max_width)` draw.  The `g += 1e-18` guard fires
only when some entry of `g` is non-positive (a float-underflow guard that
real arithmetic never triggers); `np.tile` copies the row to all `NFREQ`
channels.  No field of `self` is assigned. -/
noncomputable def gaussian_profile (s : SimulatedFRB) (width : ℕ) :
    Mat × SimulatedFRB :=
  (fun _r i =>
    (if ∀ j < s.nt, 0 < gauss_g s width j then gauss_g s width
     else fun j => gauss_g s width j + 1e-18) i, s)

/-- `np.max(row, axis=1)` over the first `n` entries of a row (for `n ≥ 1`
the fold equals numpy's row maximum; numpy errors on an empty row). -/
noncomputable def rowMax (n : ℕ) (y : ℕ → ℝ) : ℝ :=
  ((List.range n).map y).foldl max (y 0)

/-- The local `tau_nu = self.tau * (self.frequencies / self.f_ref) ** -4`
of `scatter_profile`. -/
noncomputable def tau_nu (s : SimulatedFRB) (r : ℕ) : ℝ :=
  s.tau * (s.frequencies r / s.f_ref) ^ (-4 : ℤ)

/-- The local `t = np.linspace(0, self.nt // 2, self.nt)` of
`scatter_profile`. -/
noncomputable def scat_t (s : SimulatedFRB) (i : ℕ) : ℝ :=
  linspace 0 ((s.nt / 2 : ℕ) : ℝ) s.nt i

/-- The local `prof = np.exp(-t / tau_nu) / tau_nu` of
`scatter_profile`. -/
noncomputable def scat_prof_raw (s : SimulatedFRB) (r i : ℕ) : ℝ :=
  Real.exp (-(scat_t s i) / tau_nu s r) / tau_nu s r

/-- Embeds `scatter_profile(self)`: exponential scattering profile with
per-channel timescale `tau * (f / f_ref) ** -4`, normalized by each row's
maximum.  No field of `self` is assigned. -/
noncomputable def scatter_profile (s : SimulatedFRB) :
    Mat × SimulatedFRB :=
  (fun r i => scat_prof_raw s r i / rowMax s.nt (scat_prof_raw s r), s)

/-- Row `r`, entry `k < nt` of
`fftconvolve(gaus_prof[r], scat_prof[r])[:nt]`: the full linear
convolution of the two length-`nt` rows truncated to the first `nt`
entries (for `k < nt` every index `0 ≤ i ≤ k` contributes). -/
noncomputable def pulseConv (s : SimulatedFRB) (width : ℕ) : Mat :=
  fun r k => ∑ i in Finset.range (k + 1),
    (gaussian_profile s width).1 r i * (scatter_profile s).1 r (k - i)

/-- `np.trapz(y, dx=1)` over the first `n` entries. -/
noncomputable def trapz (n : ℕ) (y : ℕ → ℝ) : ℝ :=
  ∑ i in Finset.range (n - 1), (y i + y (i + 1)) / 2

/-- Embeds `pulse_profile(self)`: convolve the Gaussian and scattering
profiles channel by channel, then divide each row by its trapezoidal
integral.  No field of `self` is assigned. -/
noncomputable def pulse_profile (s : SimulatedFRB) (width : ℕ) :
    Mat × SimulatedFRB :=
  (fun r k => pulseConv s width r k / trapz s.nt (pulseConv s width r), s)

/-- Embeds `scintillate(self)`; `width` is the inner `pulse_profile`
Gaussian-width draw, `scint_phi` the random phase and `u` the uniform draw
on `[log 1e-3, log 7]` whose exponential is the number of scintils.
Assigns `self.FRB = pulse` and returns the pulse. -/
noncomputable def scintillate (s : SimulatedFRB) (width : ℕ)
    (scint_phi u : ℝ) : Mat × SimulatedFRB :=
  let nscint0 := Real.exp u
  let nscint := if nscint0 < 1 then 0 else nscint0
  let envelope := fun r : ℕ =>
    Real.cos (2 * Real.pi * nscint * (s.frequencies r / s.f_ref) ^ (-2 : ℤ)
      + scint_phi)
  let envelope2 := fun r : ℕ =>
    (if envelope r < 0 then 0 else envelope r) + 0.1
  let pulse := fun r i => (pulse_profile s width).1 r i * envelope2 r
  (pulse, { s with FRB := some pulse })

open Classical in
/-- Embeds `roll(self)`: if `self.FRB` is `None` the method first calls
`scintillate()` (whose draws are `width`, `scint_phi`, `u`); it then
shifts `self.FRB` circularly along the time axis by the `bin_shift` draw
(`np.roll`, entry `i` comes from `(i - bin_shift) mod nt`).  Only the
`FRB` field is reassigned. -/
noncomputable def roll (s : SimulatedFRB) (width : ℕ) (scint_phi u : ℝ)
    (bin_shift : ℤ) : SimulatedFRB :=
  let s1 := if s.FRB = none then (scintillate s width scint_phi u).2 else s
  { s1 with
    FRB := s1.FRB.map (fun F => fun r i =>
      F r (Int.toNat (((i : ℤ) - bin_shift) % (s1.nt : ℤ)))) }

/-- The errors `injectFRB` can raise. -/
inductive InjectError where
  | randintEmpty   -- np.random.randint(0, high) with an empty range
  | broadcast      -- operands could not be broadcast together / assigned
  deriving DecidableEq

/-- numpy broadcast of two dimension sizes, when compatible. -/
def bcastDim (a b : ℕ) : Option ℕ :=
  if a = b then some a
  else if a = 1 then some b
  else if b = 1 then some a
  else none

/-- Index into a dimension of size `dim` that may have been broadcast
from size 1. -/
def bIdx (dim i : ℕ) : ℕ := if dim = 1 then 0 else i

/-- `np.mean(data, axis=0)` over `nchan` rows. -/
noncomputable def npMeanAxis0 (nchan : ℕ) (data : Mat) : ℕ → ℝ :=
  fun j => (∑ r in Finset.range nchan, data r j) / nchan

/-- `np.std(y)` (population standard deviation) of the first `n`
entries. -/
noncomputable def npStd (n : ℕ) (y : ℕ → ℝ) : ℝ :=
  Real.sqrt ((∑ i in Finset.range n,
    (y i - (∑ j in Finset.range n, y j) / n) ^ 2) / n)

/-- The `high` argument of `np.random.randint(0, nchan - nchan * frac)`
(numpy truncates the float bound to an integer). -/
noncomputable def stchHigh (nchan : ℕ) (frac : ℝ) : ℤ :=
  ⌊(nchan : ℝ) - (nchan : ℝ) * frac⌋

/-- Embeds `injectFRB(self, SNRmin, SNR_sigma, returnSNR=True)`.  RNG
draws: `frac` (uniform on `[0.5, 0.9)`), `wid` (burst width,
`randint(1, max_width)`), `st` (column start, `randint(0, nbins - wid)`
inclusive), `stch` (row start), `gwidth` (the inner `pulse_profile`
Gaussian-width draw) and `lognormalDraw` (the normal sample whose
exponential is the lognormal SNR contribution).  The slice assignment
`data[stch:int(stch+nchan*frac), st:st+wid] = data[...] + signal` adds the
full `(nchan, nbins)` signal to the slice under numpy broadcasting rules,
raising when the shapes are incompatible.  No field of `self` is
assigned. -/
noncomputable def injectFRB (s : SimulatedFRB) (frac : ℝ)
    (wid st stch gwidth : ℕ) (SNRmin lognormalDraw : ℝ) :
    Except InjectError (Mat × ℝ) × SimulatedFRB :=
  let data := s.background
  let nchan := s.nchan
  let nbins := s.nt
  let prof := npMeanAxis0 nchan data
  let randomSNR := SNRmin + Real.exp lognormalDraw
  let peak_value := randomSNR * npStd nbins prof
  let signal := fun r i => peak_value * (pulse_profile s gwidth).1 r i
  if stchHigh nchan frac ≤ 0 then
    (Except.error InjectError.randintEmpty, s)
  else
    -- row slice data[stch : int(stch + nchan * frac)] (stop clipped)
    let rowStop := min (Int.toNat ⌊(stch : ℝ) + (nchan : ℝ) * frac⌋) nchan
    let r := rowStop - stch
    -- column slice data[st : st + wid] (stop clipped)
    let colStop := min (st + wid) nbins
    let w := colStop - st
    match bcastDim r nchan, bcastDim w nbins with
    | some p, some q =>
      if (p = r ∨ p = 1) ∧ (q = w ∨ q = 1) then
        let rhs := fun a b =>
          data (stch + bIdx r a) (st + bIdx w b)
            + signal (bIdx nchan a) (bIdx nbins b)
        let data2 := fun i j =>
          if stch ≤ i ∧ i < rowStop ∧ st ≤ j ∧ j < colStop then
            rhs (if p = 1 then 0 else i - stch)
              (if q = 1 then 0 else j - st)
          else data i j
        (Except.ok (data2, randomSNR), s)
      else (Except.error InjectError.broadcast, s)
    | _, _ => (Except.error InjectError.broadcast, s)

theorem foldl_max_init_le (l : List ℝ) (a : ℝ) : a ≤ l.foldl max a := by
  induction l generalizing a with
  | nil => simp
  | cons x t ih => exact le_trans (le_max_left a x) (ih (max a x))

theorem rowMax_pos (n : ℕ) (y : ℕ → ℝ) (h0 : 0 < y 0) : 0 < rowMax n y :=
  lt_of_lt_of_le h0 (foldl_max_init_le _ _)

theorem gaussian_profile_pos (s : SimulatedFRB) (width : ℕ) :
    ∀ r i, 0 < (gaussian_profile s width).1 r i := by
  intro r i
  simp only [gaussian_profile]
  split
  · exact Real.exp_pos _
  · have h := Real.exp_pos (-(gauss_t s i / (width : ℝ)) ^ 2)
    unfold gauss_g
    positivity

theorem tau_nu_pos (s : SimulatedFRB) (r : ℕ) (htau : 0 < s.tau)
    (hfr : s.f_ref ≠ 0) (hf : s.frequencies r ≠ 0) : 0 < tau_nu s r := by
  unfold tau_nu
  have hx : s.frequencies r / s.f_ref ≠ 0 := div_ne_zero hf hfr
  have h4 : 0 < (s.frequencies r / s.f_ref) ^ (4 : ℕ) := by positivity
  have hz : (s.frequencies r / s.f_ref) ^ (-4 : ℤ)
      = ((s.frequencies r / s.f_ref) ^ (4 : ℕ))⁻¹ := by
    rw [show (-4 : ℤ) = -(4 : ℕ) from rfl, zpow_neg, zpow_natCast]
  rw [hz]
  exact mul_pos htau (inv_pos.mpr h4)

theorem scat_prof_raw_pos (s : SimulatedFRB) (r i : ℕ) (htau : 0 < s.tau)
    (hfr : s.f_ref ≠ 0) (hf : s.frequencies r ≠ 0) :
    0 < scat_prof_raw s r i :=
  div_pos (Real.exp_pos _) (tau_nu_pos s r htau hfr hf)

theorem scatter_profile_pos (s : SimulatedFRB) (r i : ℕ)
    (htau : 0 < s.tau) (hfr : s.f_ref ≠ 0) (hf : s.frequencies r ≠ 0) :
    0 < (scatter_profile s).1 r i := by
  simp only [scatter_profile]
  exact div_pos (scat_prof_raw_pos s r i htau hfr hf)
    (rowMax_pos _ _ (scat_prof_raw_pos s r 0 htau hfr hf))

theorem pulseConv_pos (s : SimulatedFRB) (width r k : ℕ)
    (htau : 0 < s.tau) (hfr : s.f_ref ≠ 0) (hf : s.frequencies r ≠ 0) :
    0 < pulseConv s width r k := by
  unfold pulseConv
  apply Finset.sum_pos
  · intro i _
    exact mul_pos (gaussian_profile_pos s width r i)
      (scatter_profile_pos s r (k - i) htau hfr hf)
  · exact ⟨0, by simp⟩

theorem trapz_pos (n : ℕ) (y : ℕ → ℝ) (hn : 2 ≤ n)
    (hy : ∀ i, 0 < y i) : 0 < trapz n y := by
  unfold trapz
  apply Finset.sum_pos
  · intro i _
    have h1 := hy i
    have h2 := hy (i + 1)
    positivity
  · refine ⟨0, ?_⟩
    simp only [Finset.mem_range]
    omega

theorem trapz_div (n : ℕ) (y : ℕ → ℝ) (c : ℝ) :
    trapz n (fun i => y i / c) = trapz n y / c := by
  unfold trapz
  rw [Finset.sum_div]
  apply Finset.sum_congr rfl
  intro i _
  ring

/-- C1: every row of the array returned by `pulse_profile()` has
trapezoidal integral 1 along the time axis (for any instance with at least
two time bins, positive scattering timescale, non-zero reference frequency
and non-zero channel frequency, as produced by the constructor's
defaults). -/
theorem pulse_profile_unit_area (s : SimulatedFRB) (width r : ℕ)
    (hnt : 2 ≤ s.nt) (htau : 0 < s.tau) (hfr : s.f_ref ≠ 0)
    (hf : s.frequencies r ≠ 0) :
    trapz s.nt (fun k => (pulse_profile s width).1 r k) = 1 := by
  have hpos : ∀ k, 0 < pulseConv s width r k :=
    fun k => pulseConv_pos s width r k htau hfr hf
  have hT : 0 < trapz s.nt (pulseConv s width r) :=
    trapz_pos _ _ hnt hpos
  have heq : (fun k => (pulse_profile s width).1 r k)
      = fun k => pulseConv s width r k /
          trapz s.nt (pulseConv s width r) := rfl
  rw [heq, trapz_div]
  exact div_self (ne_of_gt hT)

/-- A concrete valid instance: `shape = (2, 3)`, flat unit frequencies. -/
noncomputable def tinyFRB : SimulatedFRB :=
  { nchan := 2, nt := 3, f_ref := 1, max_width := 2,
    frequencies := fun _ => 1, t0 := 0, tau := 1, SNR := none,
    FRB := none, background := fun _ _ => 0 }

/-- Witness for `pulse_profile_unit_area` on `tinyFRB`, row 0. -/
theorem pulse_profile_unit_area_witness :
    trapz tinyFRB.nt (fun k => (pulse_profile tinyFRB 1).1 0 k) = 1 :=
  pulse_profile_unit_area tinyFRB 1 0 (by norm_num [tinyFRB])
    (by norm_num [tinyFRB]) (by norm_num [tinyFRB]) (by norm_num [tinyFRB])

/-- C10: every entry of `gaussian_profile()` is strictly positive (the
`+= 1e-18` guard preserves this in either branch), so the per-row
trapezoidal divisor computed in `pulse_profile` is non-zero. -/
theorem gaussian_pos_pulse_divisor_ne_zero (s : SimulatedFRB)
    (width r : ℕ) (hnt : 2 ≤ s.nt) (htau : 0 < s.tau)
    (hfr : s.f_ref ≠ 0) (hf : s.frequencies r ≠ 0) :
    (∀ c i, 0 < (gaussian_profile s width).1 c i) ∧
    trapz s.nt (pulseConv s width r) ≠ 0 :=
  ⟨gaussian_profile_pos s width,
   ne_of_gt (trapz_pos _ _ hnt
     (fun k => pulseConv_pos s width r k htau hfr hf))⟩

/-- Witness for `gaussian_pos_pulse_divisor_ne_zero` on `tinyFRB`. -/
theorem gaussian_pos_pulse_divisor_ne_zero_witness :
    (∀ c i, 0 < (gaussian_profile tinyFRB 1).1 c i) ∧
    trapz tinyFRB.nt (pulseConv tinyFRB 1 0) ≠ 0 :=
  gaussian_pos_pulse_divisor_ne_zero tinyFRB 1 0 (by norm_num [tinyFRB])
    (by norm_num [tinyFRB]) (by norm_num [tinyFRB]) (by norm_num [tinyFRB])

/-- C8 counterexample: `scintillate` is not pure over the instance state —
on an instance whose `FRB` field is still `None` (as right after
`__init__`), calling it changes the `FRB` field. -/
theorem scintillate_changes_FRB_field :
    (scintillate tinyFRB 1 0 0).2.FRB ≠ tinyFRB.FRB := by
  simp [scintillate, tinyFRB]

/-- C8 (amended): `gaussian_profile`, `scatter_profile`, `pulse_profile`
and `injectFRB` leave every field of the instance unchanged; `scintillate`
and `roll` leave every field except `FRB` unchanged (`scintillate` stores
the scintillated pulse in `self.FRB`, `roll` reassigns a shifted
`self.FRB`). -/
theorem simulatedFRB_frame_effects (s : SimulatedFRB)
    (width gwidth wid st stch : ℕ) (scint_phi u frac SNRmin lnd : ℝ)
    (bin_shift : ℤ) :
    (gaussian_profile s width).2 = s ∧
    (scatter_profile s).2 = s ∧
    (pulse_profile s width).2 = s ∧
    (injectFRB s frac wid st stch gwidth SNRmin lnd).2 = s ∧
    ((scintillate s width scint_phi u).2.nchan = s.nchan ∧
     (scintillate s width scint_phi u).2.nt = s.nt ∧
     (scintillate s width scint_phi u).2.f_ref = s.f_ref ∧
     (scintillate s width scint_phi u).2.max_width = s.max_width ∧
     (scintillate s width scint_phi u).2.frequencies = s.frequencies ∧
     (scintillate s width scint_phi u).2.t0 = s.t0 ∧
     (scintillate s width scint_phi u).2.tau = s.tau ∧
     (scintillate s width scint_phi u).2.SNR = s.SNR ∧
     (scintillate s width scint_phi u).2.background = s.background ∧
     (scintillate s width scint_phi u).2.FRB
       = some (scintillate s width scint_phi u).1) ∧
    ((roll s width scint_phi u bin_shift).nchan = s.nchan ∧
     (roll s width scint_phi u bin_shift).nt = s.nt ∧
     (roll s width scint_phi u bin_shift).f_ref = s.f_ref ∧
     (roll s width scint_phi u bin_shift).max_width = s.max_width ∧
     (roll s width scint_phi u bin_shift).frequencies = s.frequencies ∧
     (roll s width scint_phi u bin_shift).t0 = s.t0 ∧
     (roll s width scint_phi u bin_shift).tau = s.tau ∧
     (roll s width scint_phi u bin_shift).SNR = s.SNR ∧
     (roll s width scint_phi u bin_shift).background = s.background) := by
  refine ⟨rfl, rfl, rfl, ?_, ⟨rfl, rfl, rfl, rfl, rfl, rfl, rfl, rfl,
    rfl, rfl⟩, ?_⟩
  · unfold injectFRB
    dsimp only
    split
    · rfl
    · split
      · split <;> rfl
      · rfl
  · unfold roll
    split <;> exact ⟨rfl, rfl, rfl, rfl, rfl, rfl, rfl, rfl, rfl⟩

/-- C4 refutation: on every valid instance (at least two channels, pulse
width bounds as enforced by `__init__` and the `randint` calls) and every
in-range random draw, `injectFRB` raises instead of returning an array:
adding the full `(nchan, nbins)` signal to the smaller
`(int(nchan*frac), wid)` slice never satisfies numpy's broadcasting
rules. -/
theorem injectFRB_always_errors (s : SimulatedFRB) (frac : ℝ)
    (wid st stch gwidth : ℕ) (SNRmin lnd : ℝ)
    (hchan : 2 ≤ s.nchan) (hmw : s.max_width < s.nt)
    (hwid1 : 1 ≤ wid) (hwidU : wid < s.max_width)
    (hst : st + wid ≤ s.nt)
    (hfrac1 : 1 / 2 ≤ frac) (hfrac2 : frac < 9 / 10)
    (hstch : 0 < stchHigh s.nchan frac →
      (stch : ℤ) < stchHigh s.nchan frac) :
    ∃ e, (injectFRB s frac wid st stch gwidth SNRmin lnd).1
      = Except.error e := by
  have hnt3 : 3 ≤ s.nt := by omega
  unfold injectFRB
  dsimp only
  by_cases h0 : stchHigh s.nchan frac ≤ 0
  · rw [if_pos h0]
    exact ⟨InjectError.randintEmpty, rfl⟩
  · rw [if_neg h0]
    push_neg at h0
    have hstch' := hstch h0
    have hchanR : (2 : ℝ) ≤ (s.nchan : ℝ) := by exact_mod_cast hchan
    have hfl : ⌊(stch : ℝ) + (s.nchan : ℝ) * frac⌋
        = (stch : ℤ) + ⌊(s.nchan : ℝ) * frac⌋ := by
      rw [Int.floor_nat_add]
    rw [hfl]
    have hm1 : (1 : ℤ) ≤ ⌊(s.nchan : ℝ) * frac⌋ := by
      apply Int.le_floor.mpr
      push_cast
      nlinarith
    have hsr : (stch : ℝ) + 1 ≤ (s.nchan : ℝ) - (s.nchan : ℝ) * frac := by
      have h1 : (stch : ℤ) + 1 ≤ stchHigh s.nchan frac := hstch'
      have h2 : (((stch : ℤ) + 1 : ℤ) : ℝ) ≤ ((stchHigh s.nchan frac : ℤ) : ℝ) := by
        exact_mod_cast h1
      have h3 : ((stchHigh s.nchan frac : ℤ) : ℝ)
          ≤ (s.nchan : ℝ) - (s.nchan : ℝ) * frac := Int.floor_le _
      push_cast at h2
      linarith
    have hub : (stch : ℤ) + ⌊(s.nchan : ℝ) * frac⌋ < (s.nchan : ℤ) := by
      rw [← @Int.cast_lt ℝ]
      push_cast
      have hfle : (⌊(s.nchan : ℝ) * frac⌋ : ℝ) ≤ (s.nchan : ℝ) * frac :=
        Int.floor_le _
      linarith
    have hR : ((stch : ℤ) + ⌊(s.nchan : ℝ) * frac⌋).toNat ⊓ s.nchan - stch
        = (⌊(s.nchan : ℝ) * frac⌋).toNat := by omega
    have hw : (st + wid) ⊓ s.nt - st = wid := by omega
    rw [hR, hw]
    have hmlb : 1 ≤ (⌊(s.nchan : ℝ) * frac⌋).toNat := by omega
    have hmub : (⌊(s.nchan : ℝ) * frac⌋).toNat < s.nchan := by omega
    by_cases hw1 : wid = 1
    · subst hw1
      have hbw : bcastDim 1 s.nt = some s.nt := by
        have : (1 : ℕ) ≠ s.nt := by omega
        simp [bcastDim, this]
      by_cases hm1' : (⌊(s.nchan : ℝ) * frac⌋).toNat = 1
      · have hbr : bcastDim (⌊(s.nchan : ℝ) * frac⌋).toNat s.nchan
            = some s.nchan := by
          rw [hm1']
          have : (1 : ℕ) ≠ s.nchan := by omega
          simp [bcastDim, this]
        rw [hbr, hbw]
        have hcond : ¬ ((s.nchan = (⌊(s.nchan : ℝ) * frac⌋).toNat ∨
            s.nchan = 1) ∧ (s.nt = 1 ∨ s.nt = 1)) := by omega
        simp only [hcond, if_false]
        exact ⟨InjectError.broadcast, rfl⟩
      · have hbr : bcastDim (⌊(s.nchan : ℝ) * frac⌋).toNat s.nchan
            = none := by
          have h1 : (⌊(s.nchan : ℝ) * frac⌋).toNat ≠ s.nchan := by omega
          have h2 : (⌊(s.nchan : ℝ) * frac⌋).toNat ≠ 1 := hm1'
          have h3 : s.nchan ≠ 1 := by omega
          simp [bcastDim, h1, h2, h3]
        rw [hbr, hbw]
        exact ⟨InjectError.broadcast, rfl⟩
    · have hbw : bcastDim wid s.nt = none := by
        have h1 : wid ≠ s.nt := by omega
        have h2 : wid ≠ 1 := hw1
        have h3 : s.nt ≠ 1 := by omega
        simp [bcastDim, h1, h2, h3]
      rcases bcastDim (⌊(s.nchan : ℝ) * frac⌋).toNat s.nchan with _ | p
      · rw [hbw]
        exact ⟨InjectError.broadcast, rfl⟩
      · rw [hbw]
        exact ⟨InjectError.broadcast, rfl⟩

/-- A concrete instance with the constructor's default parameters:
`shape = (64, 256)`, `f_ref = 1350`, `bandwidth = 1500` (so frequencies
from 600 to 2100), `max_width = 4`, `tau = 0.1`. -/
noncomputable def sampleFRB : SimulatedFRB :=
  { nchan := 64, nt := 256, f_ref := 1350, max_width := 4,
    frequencies := fun r => linspace 600 2100 64 r, t0 := 0, tau := 0.1,
    SNR := none, FRB := none, background := fun _ _ => 0 }

/-- Witness for `injectFRB_always_errors`: the default-shaped instance
with draws `frac = 0.7`, `wid = 2`, `st = 0`, `stch = 0`. -/
theorem injectFRB_always_errors_witness :
    ∃ e, (injectFRB sampleFRB (7 / 10) 2 0 0 2 10 0).1
      = Except.error e :=
  injectFRB_always_errors sampleFRB (7 / 10) 2 0 0 2 10 0
    (by norm_num [sampleFRB]) (by norm_num [sampleFRB]) (by norm_num)
    (by norm_num [sampleFRB]) (by norm_num [sampleFRB]) (by norm_num)
    (by norm_num) (fun h => by simpa using h)

end HeyAliens
